import Mathlib

/-!
Verification development for `makehuman/shared/animation.py`.

The Python module is embedded shallowly:

* a 4×4 `numpy` matrix becomes `Mat := Fin 4 → Fin 4 → ℚ` (exact rational
  entries stand in for floats; all arithmetic the code performs on matrix
  entries is ring arithmetic, so the embedding is faithful up to floating
  rounding, which no claim depends on);
* `numpy` arrays of matrices become `List Mat`, Python slicing becomes
  `pySlice` with Python's negative-index/clamping semantics;
* `math.modf` becomes truncation toward zero (`truncQ`), Python's `%` on a
  positive divisor becomes `Int.emod`;
* methods that can raise become `Except String`-valued functions; methods
  that mutate `self` return the updated value.
-/

/-- A 4×4 pose matrix (`np.array((4,4), dtype=np.float32)`). -/
abbrev Mat : Type := Fin 4 → Fin 4 → ℚ

/-- Constant matrix, used for concrete test fixtures. -/
def cM (k : ℚ) : Mat := fun _ _ => k

/-- `np.identity(4)`. -/
def id4 : Mat := fun i j => if i = j then 1 else 0

/-- `np.zeros((4,4))`. -/
def matZero : Mat := fun _ _ => 0

/-- Entry `M[i, j]` for natural indices.  The embedded code only ever reads
in-range entries; out-of-range reads return the junk value 0. -/
def mEntry (M : Mat) (i j : ℕ) : ℚ :=
  if hi : i < 4 then if hj : j < 4 then M ⟨i, hi⟩ ⟨j, hj⟩ else 0 else 0

/-- Convert a Python slice bound into a list index: negative indices count
from the end, and the result is clamped into `[0, len]`. -/
def pyIdx (len : ℕ) (i : ℤ) : ℕ :=
  (max 0 (min (if i < 0 then i + len else i) len)).toNat

/-- Python slicing `xs[a:b]`. -/
def pySlice {α : Type} (xs : List α) (a b : ℤ) : List α :=
  (xs.take (pyIdx xs.length b)).drop (pyIdx xs.length a)

/-- Integer part of `math.modf`: truncation toward zero. -/
def truncQ (q : ℚ) : ℤ := if 0 ≤ q then ⌊q⌋ else ⌈q⌉

/-- `class AnimationTrack(object)` (animation.py lines 52-204): one field per
Python instance attribute set in `__init__`, except that `looping` starts
absent (`none`) because `__init__` never creates it — only `setLooping`
(line 178) does. -/
structure AnimationTrack where
  name : String
  _data : List Mat
  dataLen : ℕ
  nBones : ℕ
  nFrames : ℕ
  frameRate : ℚ
  loop : Bool
  looping : Option Bool
  _data_baked : Option (List Mat)
  interpolationType : ℕ
deriving DecidableEq

deriving instance DecidableEq for Except

/-- `AnimationTrack.__init__` (lines 54-89).  `nBones = dataLen/nFrames` is
Python-2 integer (floor) division; a `nFrames = 0` argument raises
`ZeroDivisionError`; a length that is not an exact multiple raises
`RuntimeError`.  (The second shape check, `poseData.shape != (dataLen,4,4)`,
is enforced by the type `List Mat`.) -/
def AnimationTrack.make (nm : String) (poseData : List Mat) (nFrames : ℕ)
    (framerate : ℚ) : Except String AnimationTrack :=
  let dataLen := poseData.length
  if nFrames = 0 then .error "ZeroDivisionError"
  else
    let nBones := dataLen / nFrames
    if nBones * nFrames ≠ dataLen then
      .error "RuntimeError: pose data does not have the proper length"
    else
      .ok { name := nm, _data := poseData, dataLen := dataLen, nBones := nBones,
            nFrames := nFrames, frameRate := framerate, loop := true,
            looping := none, _data_baked := none, interpolationType := 0 }

/-- The `data` property (lines 91-96): serves the baked buffer when present. -/
def AnimationTrack.data (t : AnimationTrack) : List Mat :=
  match t._data_baked with
  | some b => b
  | none => t._data

/-- `isBaked` (lines 98-99). -/
def AnimationTrack.isBaked (t : AnimationTrack) : Bool := t._data_baked.isSome

/-- `resetBaked` (lines 101-102). -/
def AnimationTrack.resetBaked (t : AnimationTrack) : AnimationTrack :=
  { t with _data_baked := none }

/-- `getFrameIndexAtTime` (lines 153-172).  `fraction, frameIdx =
math.modf(frameRate*time)` truncates toward zero; Python's float `%` with a
positive divisor agrees with `Int.emod`. -/
def AnimationTrack.getFrameIndexAtTime (t : AnimationTrack) (time : ℚ) : ℤ × ℚ :=
  let raw := t.frameRate * time
  let frameIdx := truncQ raw
  let fraction := raw - frameIdx
  if t.loop then (Int.emod frameIdx t.nFrames, fraction)
  else if (t.nFrames : ℤ) ≤ frameIdx then ((t.nFrames : ℤ) - 1, 0)
  else (frameIdx, fraction)

/-- `getAtTime` (lines 128-147).  The LOG branch (`interpolationType = 2`)
falls through `pass`, i.e. returns `None`. -/
def AnimationTrack.getAtTime (t : AnimationTrack) (time : ℚ) : Option (List Mat) :=
  let p := t.getFrameIndexAtTime time
  if p.2 = 0 ∨ t.interpolationType = 0 then
    some (pySlice t.data (p.1 * t.nBones) (p.1 * t.nBones + t.nBones))
  else if t.interpolationType = 1 then
    let idx1 := p.1 * t.nBones
    let idx2 := (Int.emod (p.1 + 1) t.nFrames) * t.nBones
    some (List.zipWith
      (fun A B => fun i j => (1 - p.2) * A i j + p.2 * B i j)
      (pySlice t.data idx1 (idx1 + t.nBones))
      (pySlice t.data idx2 (idx2 + t.nBones)))
  else none

/-- `getAtFramePos` (lines 149-151). -/
def AnimationTrack.getAtFramePos (t : AnimationTrack) (frame : ℤ) : List Mat :=
  pySlice t.data (frame * t.nBones) ((frame + 1) * t.nBones)

/-- `isLooping` (lines 174-175): reads `self.loop`. -/
def AnimationTrack.isLooping (t : AnimationTrack) : Bool := t.loop

/-- `setLooping` (lines 177-178): writes `self.looping` — a different
attribute from the `self.loop` every reader consults. -/
def AnimationTrack.setLooping (t : AnimationTrack) (enabled : Bool) : AnimationTrack :=
  { t with looping := some enabled }

/-- `getPlaytime` (lines 180-184). -/
def AnimationTrack.getPlaytime (t : AnimationTrack) : ℚ :=
  (t.nFrames : ℚ) / t.frameRate

/-- `sparsify` (lines 186-204).  After the rate guard, `dropFrames =
int(frameRate/newFrameRate)` (truncation); `dropFrames <= 0` returns the
track unchanged.  Otherwise lines 194-200 compute the kept-frame index list
(no observable effect), and line 201 `self.data = data` assigns to the
getter-only `data` property of the new-style class `AnimationTrack(object)`,
which raises `AttributeError` before any attribute is updated.  A zero
`newFrameRate` would already raise `ZeroDivisionError` at line 191. -/
def AnimationTrack.sparsify (t : AnimationTrack) (newFrameRate : ℚ) :
    Except String AnimationTrack :=
  if t.frameRate < newFrameRate then
    .error "RuntimeError: Cannot sparsify animation"
  else if newFrameRate = 0 then .error "ZeroDivisionError"
  else
    let dropFrames := truncQ (t.frameRate / newFrameRate)
    if dropFrames ≤ 0 then .ok t
    else .error "AttributeError: cannot set attribute"

/-- The skeleton collaborator used by `bake` (spec §6): an ordered bone list,
a mutable current pose, and for each bone a skin matrix `matPoseVerts` that
is a function of the currently set pose (`skinOf pose boneIdx`). -/
structure Skeleton where
  bones : List String
  pose : List Mat
  skinOf : List Mat → ℕ → Mat

/-- `bake` (lines 104-126), state-passing: returns the outcome together with
the updated track and skeleton (unchanged when the bone-count check at lines
112-114 raises, since the check precedes every mutation).  The per-frame pose
is set, as in line 120, to `self._data[f_idx : f_idx+nBones]` — the slice
starts at `f_idx`, not at `f_idx*nBones` — and the skin matrix of bone `b`
under that pose lands at baked index `f_idx*nBones + b` (lines 121-123).
Line 126 restores the entry pose. -/
def AnimationTrack.bake (t : AnimationTrack) (skel : Skeleton) :
    Except String Unit × AnimationTrack × Skeleton :=
  if skel.bones.length ≠ t.nBones then
    (.error "RuntimeError: bone count of skeleton differs", t, skel)
  else
    let old_pose := skel.pose
    let baked := (List.range t.nFrames).foldl
      (fun acc f =>
        let framePose := pySlice t._data (f : ℤ) ((f : ℤ) + t.nBones)
        acc ++ (List.range t.nBones).map (fun b => skel.skinOf framePose b))
      []
    (.ok (), { t with _data_baked := some baked }, { skel with pose := old_pose })

/-- `poseState[:, :3, 3] = 0` (line 582): zero the translation column
(rows 0-2 of column 3) of one matrix. -/
def zeroTranslation (M : Mat) : Mat :=
  fun i j => if j = 3 ∧ i ≠ 3 then 0 else M i j

/-- The slice of `AnimatedMesh` state that `getPoseState` reads (lines
571-583): the active animation, the play time and the `__inPlace` flag. -/
structure AnimatedMesh where
  currentAnim : AnimationTrack
  playTime : ℚ
  inPlace : Bool

/-- `getPoseState` (lines 571-583).  When `__inPlace` is set the sampled
matrices are copied (`poseState.copy()`, line 580) before the translation
column is zeroed, so the track's cached buffers are never written; the
state component of the result is therefore the input state itself. -/
def AnimatedMesh.getPoseState (am : AnimatedMesh) :
    AnimatedMesh × Option (List Mat) :=
  (am,
    let ps := am.currentAnim.getAtTime am.playTime
    if am.inPlace then ps.map (fun l => l.map zeroTranslation) else ps)

/-! ### Concrete fixtures -/

/-- A 1-bone, 2-frame looping track at 1 fps (what
`AnimationTrack("t4", [cM 1, cM 2], 2, 1)` constructs). -/
def t4 : AnimationTrack :=
  { name := "t4", _data := [cM 1, cM 2], dataLen := 2, nBones := 1, nFrames := 2,
    frameRate := 1, loop := true, looping := none, _data_baked := none,
    interpolationType := 0 }

/-- A 1-bone, 2-frame track at 2 fps. -/
def spT : AnimationTrack :=
  { name := "sp", _data := [cM 1, cM 2], dataLen := 2, nBones := 1, nFrames := 2,
    frameRate := 2, loop := true, looping := none, _data_baked := none,
    interpolationType := 0 }

/-- A 2-bone, 2-frame track whose four pose matrices are pairwise distinct. -/
def bakeT : AnimationTrack :=
  { name := "bk", _data := [cM 0, cM 1, cM 2, cM 3], dataLen := 4, nBones := 2,
    nFrames := 2, frameRate := 1, loop := true, looping := none,
    _data_baked := none, interpolationType := 0 }

/-- A two-bone skeleton whose skin matrix for bone `b` is the matrix set for
bone `b` in the current pose. -/
def skelB : Skeleton :=
  { bones := ["a", "b"], pose := [cM 7, cM 7],
    skinOf := fun p b => p.getD b (cM 9) }

/-- A one-frame track whose single matrix has every entry (incl. the
translation column) equal to 5. -/
def amT : AnimationTrack :=
  { name := "am", _data := [cM 5], dataLen := 1, nBones := 1, nFrames := 1,
    frameRate := 1, loop := true, looping := none, _data_baked := none,
    interpolationType := 0 }

/-- An animated-mesh state with `animateInPlace` enabled. -/
def am0 : AnimatedMesh := { currentAnim := amT, playTime := 0, inPlace := true }

theorem loop_foldl_setLooping (bs : List Bool) : ∀ t : AnimationTrack,
    (bs.foldl AnimationTrack.setLooping t).loop = t.loop := by
  induction bs with
  | nil => intro t; rfl
  | cons b bs ih => intro t; simpa [AnimationTrack.setLooping] using ih _

/-- Claim C9: `setLooping(b)` writes the fresh attribute `looping` and leaves
the `loop` attribute — the one `getFrameIndexAtTime` consults and `isLooping`
reports — untouched, so after construction (which sets `loop = True`) any
sequence of `setLooping` calls still has `isLooping()` return `True` and
`loop` unchanged. -/
theorem setLooping_leaves_loop_true (nm : String) (pd : List Mat) (nF : ℕ) (fr : ℚ)
    (t : AnimationTrack) (h : AnimationTrack.make nm pd nF fr = .ok t)
    (bs : List Bool) :
    (bs.foldl AnimationTrack.setLooping t).isLooping = true ∧
    (bs.foldl AnimationTrack.setLooping t).loop = t.loop := by
  have hloop : t.loop = true := by
    simp only [AnimationTrack.make] at h
    split at h
    · simp at h
    · split at h
      · simp at h
      · injection h with h2
        subst h2
        rfl
  exact ⟨by rw [AnimationTrack.isLooping, loop_foldl_setLooping, hloop],
         loop_foldl_setLooping bs t⟩

theorem setLooping_leaves_loop_true_witness :
    AnimationTrack.make "t4" [cM 1, cM 2] 2 1 = .ok t4 ∧
    (([false] : List Bool).foldl AnimationTrack.setLooping t4).isLooping = true :=
  ⟨rfl, (setLooping_leaves_loop_true "t4" [cM 1, cM 2] 2 1 t4 rfl [false]).1⟩

/-- Claim C5 (code bug demonstration): for every valid downsampling ratio
(`0 < newFrameRate ≤ frameRate`, so `dropFactor = floor(frameRate/newFrameRate)
≥ 1`), `sparsify` raises `AttributeError` — line 201 assigns to the
getter-only `data` property — instead of succeeding as the spec describes. -/
theorem sparsify_always_raises (t : AnimationTrack) (nfr : ℚ)
    (h0 : 0 < nfr) (h1 : nfr ≤ t.frameRate) :
    t.sparsify nfr = .error "AttributeError: cannot set attribute" := by
  have hq : (1:ℚ) ≤ t.frameRate / nfr := (one_le_div h0).mpr h1
  have htr : 1 ≤ truncQ (t.frameRate / nfr) := by
    rw [truncQ, if_pos (le_trans zero_le_one hq)]
    exact Int.le_floor.mpr (by exact_mod_cast hq)
  simp only [AnimationTrack.sparsify]
  rw [if_neg (not_lt.mpr h1), if_neg h0.ne', if_neg (by omega)]

theorem sparsify_always_raises_witness :
    (0:ℚ) < 1 ∧ (1:ℚ) ≤ spT.frameRate ∧
    spT.sparsify 1 = .error "AttributeError: cannot set attribute" :=
  ⟨by norm_num, by norm_num [spT], sparsify_always_raises spT 1 (by norm_num) (by norm_num [spT])⟩

/-- Claim C7: `bake` raises if and only if the skeleton's bone count differs
from the track's `nBones`, and on that error the track (primary buffer, baked
buffer, `nFrames`, `frameRate`) and the skeleton's pose are exactly as before
the call, the check preceding every mutation. -/
theorem bake_error_iff (t : AnimationTrack) (s : Skeleton) :
    ((t.bake s).1 = .ok () ↔ s.bones.length = t.nBones) ∧
    ((t.bake s).1 ≠ .ok () → (t.bake s).2.1 = t ∧ (t.bake s).2.2 = s) := by
  by_cases h : s.bones.length = t.nBones
  · refine ⟨⟨fun _ => h, fun _ => ?_⟩, fun hne => absurd ?_ hne⟩ <;>
      simp [AnimationTrack.bake, h]
  · refine ⟨⟨fun hok => absurd hok ?_, fun hh => absurd hh h⟩, fun _ => ?_⟩ <;>
      simp [AnimationTrack.bake, h]

theorem bake_error_iff_witness :
    (t4.bake skelB).1 ≠ .ok () ∧ (t4.bake skelB).2.1 = t4 ∧ (t4.bake skelB).2.2 = skelB :=
  have hne : (t4.bake skelB).1 ≠ .ok () := by with_unfolding_all decide
  ⟨hne, (bake_error_iff t4 skelB).2 hne⟩

/-- Claim C8: with `animateInPlace` enabled, whenever `getPoseState` returns
matrices, every returned matrix has a zero translation column (rows 0-2 of
column 3), and the state — in particular the active track's cached primary
and baked buffers — is returned unchanged (the zeroing happens on a copy). -/
theorem getPoseState_inPlace_zeroes (am : AnimatedMesh) (ps : List Mat)
    (h1 : am.inPlace = true) (h2 : (am.getPoseState).2 = some ps) :
    (∀ M ∈ ps, ∀ i : Fin 4, i ≠ 3 → M i 3 = 0) ∧ (am.getPoseState).1 = am := by
  refine ⟨?_, rfl⟩
  simp only [AnimatedMesh.getPoseState, h1, if_true] at h2
  rcases Option.map_eq_some'.mp h2 with ⟨l, hl, rfl⟩
  intro M hM i hi
  rcases List.mem_map.mp hM with ⟨M0, hM0, rfl⟩
  simp [zeroTranslation, hi]

theorem getPoseState_inPlace_zeroes_witness :
    am0.inPlace = true ∧ (am0.getPoseState).2 = some [zeroTranslation (cM 5)] ∧
    (∀ M ∈ [zeroTranslation (cM 5)], ∀ i : Fin 4, i ≠ 3 → M i 3 = 0) :=
  ⟨rfl, by with_unfolding_all decide,
   (getPoseState_inPlace_zeroes am0 [zeroTranslation (cM 5)] rfl (by with_unfolding_all decide)).1⟩

/-- Claim C1 (code bug demonstration): on a 2-bone 2-frame track, `bake`
succeeds but, for frame 1, sets the skeleton pose to `_data[1:3]` (the slice
`f_idx : f_idx+nBones` of line 120) rather than the frame slice
`_data[1*nBones : 2*nBones] = _data[2:4]`, so the baked entry at index
`1*nBones + 0 = 2` holds the skin matrix of `_data[1]` instead of the one
frame 1's pose (whose bone-0 skin matrix here is `cM 2`) would give. -/
theorem bake_uses_wrong_frame_slice :
    ((bakeT.bake skelB).1 = .ok () ∧
      (bakeT.bake skelB).2.1._data_baked = some [cM 0, cM 1, cM 1, cM 2]) ∧
    pySlice bakeT._data (1 : ℤ) ((1 : ℤ) + bakeT.nBones) ≠
      pySlice bakeT._data ((1 : ℤ) * bakeT.nBones) (((1 : ℤ) + 1) * bakeT.nBones) ∧
    skelB.skinOf (pySlice bakeT._data ((1 : ℤ) * bakeT.nBones)
        (((1 : ℤ) + 1) * bakeT.nBones)) 0 = cM 2 ∧
    (cM 1 : Mat) ≠ cM 2 := by
  exact ⟨⟨by with_unfolding_all decide, by with_unfolding_all decide⟩,
    by with_unfolding_all decide, by with_unfolding_all decide,
    by with_unfolding_all decide⟩

/-- Claim C4 (amended: `time ≥ 0`, with the spec's track well-formedness
`frameRate ≥ 0`, `nFrames > 0`): `getFrameIndexAtTime` returns
`frameIndex = floor(frameRate*time)` reduced modulo `nFrames` when `loop`,
clamped to `nFrames-1` with fraction forced to 0 when not `loop` and
`floor(frameRate*time) ≥ nFrames`, and otherwise the pair
`(floor(raw), raw - floor(raw))`; the fraction always lies in `[0, 1)`.
For `time < 0` the claim fails because `math.modf` truncates toward zero
(see the counterexample). -/
theorem getFrameIndexAtTime_floor_spec (t : AnimationTrack) (time : ℚ)
    (hfr : 0 ≤ t.frameRate) (ht : 0 ≤ time) (hn : 0 < t.nFrames) :
    0 ≤ (t.getFrameIndexAtTime time).2 ∧ (t.getFrameIndexAtTime time).2 < 1 ∧
    (t.loop = true →
      t.getFrameIndexAtTime time =
        (Int.emod ⌊t.frameRate * time⌋ t.nFrames,
         t.frameRate * time - ⌊t.frameRate * time⌋)) ∧
    (t.loop = false → (t.nFrames : ℤ) ≤ ⌊t.frameRate * time⌋ →
      t.getFrameIndexAtTime time = ((t.nFrames : ℤ) - 1, 0)) ∧
    (t.loop = false → ⌊t.frameRate * time⌋ < (t.nFrames : ℤ) →
      t.getFrameIndexAtTime time =
        (⌊t.frameRate * time⌋, t.frameRate * time - ⌊t.frameRate * time⌋)) := by
  have hraw : 0 ≤ t.frameRate * time := mul_nonneg hfr ht
  have htr : truncQ (t.frameRate * time) = ⌊t.frameRate * time⌋ := if_pos hraw
  have hf0 : 0 ≤ t.frameRate * time - (⌊t.frameRate * time⌋ : ℚ) :=
    sub_nonneg.mpr (Int.floor_le _)
  have hf1 : t.frameRate * time - (⌊t.frameRate * time⌋ : ℚ) < 1 := by
    have := Int.lt_floor_add_one (t.frameRate * time)
    linarith
  by_cases hb : t.loop = true
  · have hp : t.getFrameIndexAtTime time =
        (Int.emod ⌊t.frameRate * time⌋ t.nFrames,
         t.frameRate * time - ⌊t.frameRate * time⌋) := by
      simp only [AnimationTrack.getFrameIndexAtTime, htr, hb, if_true]
    rw [hp]
    exact ⟨hf0, hf1, fun _ => rfl, fun hf => absurd hb (by simp [hf]),
           fun hf => absurd hb (by simp [hf])⟩
  · have hb2 : t.loop = false := by simpa using hb
    by_cases hc : (t.nFrames : ℤ) ≤ ⌊t.frameRate * time⌋
    · have hp : t.getFrameIndexAtTime time = ((t.nFrames : ℤ) - 1, 0) := by
        simp only [AnimationTrack.getFrameIndexAtTime, htr, hb2, hc]
        simp
      rw [hp]
      exact ⟨le_refl 0, zero_lt_one, fun hf => absurd hf (by simp [hb2]),
             fun _ _ => rfl, fun _ hlt => absurd hc (not_le.mpr hlt)⟩
    · have hp : t.getFrameIndexAtTime time =
          (⌊t.frameRate * time⌋, t.frameRate * time - ⌊t.frameRate * time⌋) := by
        simp only [AnimationTrack.getFrameIndexAtTime, htr, hb2, hc]
        simp
      rw [hp]
      exact ⟨hf0, hf1, fun hf => absurd hf (by simp [hb2]),
             fun _ hle => absurd hle hc, fun _ _ => rfl⟩

theorem getFrameIndexAtTime_floor_spec_witness :
    (0:ℚ) ≤ t4.frameRate ∧ (0:ℚ) ≤ 3/2 ∧ 0 < t4.nFrames ∧
    (t4.getFrameIndexAtTime ((3:ℚ)/2)).2 < 1 :=
  ⟨by norm_num [t4], by norm_num, by norm_num [t4],
   (getFrameIndexAtTime_floor_spec t4 ((3:ℚ)/2) (by norm_num [t4]) (by norm_num)
     (by norm_num [t4])).2.1⟩

/-- Claim C4, counterexample to the unrestricted claim: on the looping track
`t4` (`frameRate = 1`, `nFrames = 2`) at `time = -1/2` the code returns
`(0, -1/2)` — not `(floor(-1/2) mod 2, -1/2 - floor(-1/2)) = (1, 1/2)` — and
the returned fraction is negative. -/
theorem getFrameIndexAtTime_floor_cex :
    t4.loop = true ∧
    ¬ (t4.getFrameIndexAtTime (-(1:ℚ)/2) =
        (Int.emod ⌊t4.frameRate * (-(1:ℚ)/2)⌋ t4.nFrames,
         t4.frameRate * (-(1:ℚ)/2) - ⌊t4.frameRate * (-(1:ℚ)/2)⌋) ∧
       0 ≤ (t4.getFrameIndexAtTime (-(1:ℚ)/2)).2) := by
  exact ⟨rfl, by with_unfolding_all decide⟩

theorem getFrameIndexAtTime_period (t : AnimationTrack) (time : ℚ)
    (hl : t.loop = true) (hfr : 0 < t.frameRate) (hn : 0 < t.nFrames)
    (ht : 0 ≤ time) :
    t.getFrameIndexAtTime (time + (t.nFrames : ℚ) / t.frameRate) =
      t.getFrameIndexAtTime time := by
  have hr0 : t.frameRate ≠ 0 := ne_of_gt hfr
  have hraw2 : t.frameRate * (time + (t.nFrames : ℚ) / t.frameRate) =
      t.frameRate * time + (t.nFrames : ℚ) := by
    field_simp
    ring
  have hpos : 0 ≤ t.frameRate * time := mul_nonneg hfr.le ht
  have hpos2 : 0 ≤ t.frameRate * time + (t.nFrames : ℚ) := by positivity
  have htr : truncQ (t.frameRate * time) = ⌊t.frameRate * time⌋ := if_pos hpos
  have htr2 : truncQ (t.frameRate * time + (t.nFrames : ℚ)) =
      ⌊t.frameRate * time⌋ + (t.nFrames : ℤ) := by
    rw [truncQ, if_pos hpos2]
    rw [show ((t.nFrames : ℚ)) = (((t.nFrames : ℤ) : ℚ)) by push_cast; ring]
    rw [Int.floor_add_int]
  simp only [AnimationTrack.getFrameIndexAtTime, hraw2, htr, htr2, hl, if_true]
  refine Prod.ext ?_ ?_
  · exact Int.add_emod_self
  · push_cast
    ring

/-- Claim C6 (amended: `time ≥ 0`, `frameRate > 0`, `nFrames > 0`): for a
looping track, sampling at `time` and at `time + nFrames/frameRate` yields
the same matrices — `getAtTime` is periodic with period `nFrames/frameRate`
on nonnegative times.  For `time < 0` periodicity fails because `math.modf`
truncates toward zero (see the counterexample). -/
theorem getAtTime_periodic (t : AnimationTrack) (time : ℚ)
    (hl : t.loop = true) (hfr : 0 < t.frameRate) (hn : 0 < t.nFrames)
    (ht : 0 ≤ time) :
    t.getAtTime (time + (t.nFrames : ℚ) / t.frameRate) = t.getAtTime time := by
  simp only [AnimationTrack.getAtTime,
    getFrameIndexAtTime_period t time hl hfr hn ht]

theorem getAtTime_periodic_witness :
    t4.getAtTime ((1:ℚ)/2 + (t4.nFrames : ℚ) / t4.frameRate) = t4.getAtTime ((1:ℚ)/2) :=
  getAtTime_periodic t4 ((1:ℚ)/2) rfl (by norm_num [t4]) (by norm_num [t4]) (by norm_num)

/-- Claim C6, counterexample to the unrestricted claim: on the looping track
`t4` (period `nFrames/frameRate = 2`), sampling at `-1/4` returns frame 0's
matrices while sampling at `-1/4 + 2 = 7/4` returns frame 1's. -/
theorem getAtTime_periodic_cex :
    t4.loop = true ∧
    t4.getAtTime (-(1:ℚ)/4 + (t4.nFrames : ℚ) / t4.frameRate) ≠
      t4.getAtTime (-(1:ℚ)/4) :=
  ⟨rfl, by with_unfolding_all decide⟩

/-- Entry `(i, j)` of a vertex's accumulated matrix (lines 683-713):
`sum over slots of wght_k * P[b_idx_k][i, j]`, restricted by the caller to
`i < 3`, `j < c`.  The structured-array dtype always has `K ∈ {1,3,4,17}`
slots and `skinMesh` dispatches on that count to sum exactly the `K` slots,
so a vertex record is a `K`-element list summed in full.  (`numpy` would
raise on an out-of-range bone index; the junk value `matZero` is never
read under the in-range hypotheses used below.) -/
def accumEntry (P : List Mat) (w : List (ℚ × ℕ)) (i j : ℕ) : ℚ :=
  (w.map (fun p => p.1 * mEntry (P.getD p.2 matZero) i j)).sum

/-- One vertex of `skinMesh`: the accumulated `3×c` matrix applied to the
first `c` components of the vertex (the `np.einsum` at line 722). -/
def skinVertex (c : ℕ) (P : List Mat) (w : List (ℚ × ℕ)) (co : List ℚ) : List ℚ :=
  (List.range 3).map (fun i =>
    ((List.range c).map (fun j => accumEntry P w i j * co.getD j 0)).sum)

/-- `skinMesh` (lines 655-722): `c = 4` iff the coordinate array has 4
columns (line 671); each vertex is skinned independently. -/
def skinMesh (coords : List (List ℚ)) (W : List (List (ℚ × ℕ))) (P : List Mat) :
    List (List ℚ) :=
  let c := if (coords.headD []).length = 4 then 4 else 3
  (coords.zip W).map (fun pr => skinVertex c P pr.2 pr.1)

theorem getD_replicate_id4 {nB k : ℕ} (h : k < nB) :
    (List.replicate nB id4).getD k matZero = id4 := by
  induction nB generalizing k with
  | zero => omega
  | succ n ih =>
    cases k with
    | zero => rfl
    | succ k => exact ih (by omega)

theorem accumEntry_id4 (nB : ℕ) (w : List (ℚ × ℕ))
    (hw : (w.map Prod.fst).sum = 1) (hr : ∀ p ∈ w, p.2 < nB) (i j : ℕ) :
    accumEntry (List.replicate nB id4) w i j = mEntry id4 i j := by
  unfold accumEntry
  have hcg : ∀ p ∈ w, p.1 * mEntry ((List.replicate nB id4).getD p.2 matZero) i j
      = p.1 * mEntry id4 i j := by
    intro p hp
    rw [getD_replicate_id4 (hr p hp)]
  rw [List.map_congr_left hcg, List.sum_map_mul_right]
  have hw2 : (w.map (fun p => p.1)).sum = (1:ℚ) := hw
  rw [hw2, one_mul]

theorem list_eq_of_length_four (r : List ℚ) (h : r.length = 4) :
    ∃ a b c d, r = [a, b, c, d] := by
  cases r with
  | nil => simp at h
  | cons a r =>
    cases r with
    | nil => simp at h
    | cons b r =>
      cases r with
      | nil => simp at h
      | cons c r =>
        cases r with
        | nil => simp at h
        | cons d r =>
          cases r with
          | nil => exact ⟨a, b, c, d, rfl⟩
          | cons e r => simp at h
            
theorem list_eq_of_length_three (r : List ℚ) (h : r.length = 3) :
    ∃ a b c, r = [a, b, c] := by
  cases r with
  | nil => simp at h
  | cons a r =>
    cases r with
    | nil => simp at h
    | cons b r =>
      cases r with
      | nil => simp at h
      | cons c r =>
        cases r with
        | nil => exact ⟨a, b, c, rfl⟩
        | cons d r => simp at h

theorem skinVertex_id4_len4 (nB : ℕ) (w : List (ℚ × ℕ)) (a b c2 d : ℚ)
    (hw : (w.map Prod.fst).sum = 1) (hr : ∀ p ∈ w, p.2 < nB) :
    skinVertex 4 (List.replicate nB id4) w [a, b, c2, d] = [a, b, c2] := by
  unfold skinVertex
  rw [show List.range 3 = [0, 1, 2] from rfl, show List.range 4 = [0, 1, 2, 3] from rfl]
  simp only [List.map_cons, List.map_nil, List.sum_cons, List.sum_nil,
    accumEntry_id4 nB w hw hr]
  norm_num [mEntry, id4, List.getD, Fin.ext_iff]

theorem skinVertex_id4_len3 (nB : ℕ) (w : List (ℚ × ℕ)) (a b c2 : ℚ)
    (hw : (w.map Prod.fst).sum = 1) (hr : ∀ p ∈ w, p.2 < nB) :
    skinVertex 3 (List.replicate nB id4) w [a, b, c2] = [a, b, c2] := by
  unfold skinVertex
  rw [show List.range 3 = [0, 1, 2] from rfl]
  simp only [List.map_cons, List.map_nil, List.sum_cons, List.sum_nil,
    accumEntry_id4 nB w hw hr]
  norm_num [mEntry, id4, List.getD, Fin.ext_iff]

theorem skinMesh_zip_len4 (nB : ℕ) :
    ∀ (coords : List (List ℚ)) (W : List (List (ℚ × ℕ))),
    coords.length = W.length →
    (∀ r ∈ coords, r.length = 4) →
    (∀ v ∈ W, (v.map Prod.fst).sum = 1 ∧ ∀ p ∈ v, p.2 < nB) →
    (coords.zip W).map (fun pr => skinVertex 4 (List.replicate nB id4) pr.2 pr.1)
      = coords.map (fun r => r.take 3) := by
  intro coords
  induction coords with
  | nil => intro W _ _ _; rfl
  | cons r rest ih =>
    intro W hlen hc hw
    cases W with
    | nil => simp at hlen
    | cons v vs =>
      obtain ⟨a, b, c2, d, rfl⟩ := list_eq_of_length_four r (hc r (by simp))
      simp only [List.zip_cons_cons, List.map_cons]
      rw [skinVertex_id4_len4 nB v a b c2 d (hw v (by simp)).1 (hw v (by simp)).2]
      rw [ih vs (by simpa using hlen) (fun r hr => hc r (by simp [hr]))
        (fun v2 hv2 => hw v2 (by simp [hv2]))]
      rfl

theorem skinMesh_zip_len3 (nB : ℕ) :
    ∀ (coords : List (List ℚ)) (W : List (List (ℚ × ℕ))),
    coords.length = W.length →
    (∀ r ∈ coords, r.length = 3) →
    (∀ v ∈ W, (v.map Prod.fst).sum = 1 ∧ ∀ p ∈ v, p.2 < nB) →
    (coords.zip W).map (fun pr => skinVertex 3 (List.replicate nB id4) pr.2 pr.1)
      = coords.map (fun r => r.take 3) := by
  intro coords
  induction coords with
  | nil => intro W _ _ _; rfl
  | cons r rest ih =>
    intro W hlen hc hw
    cases W with
    | nil => simp at hlen
    | cons v vs =>
      obtain ⟨a, b, c2, rfl⟩ := list_eq_of_length_three r (hc r (by simp))
      simp only [List.zip_cons_cons, List.map_cons]
      rw [skinVertex_id4_len3 nB v a b c2 (hw v (by simp)).1 (hw v (by simp)).2]
      rw [ih vs (by simpa using hlen) (fun r hr => hc r (by simp [hr]))
        (fun v2 hv2 => hw v2 (by simp [hv2]))]
      rfl

/-- Claim C2: for coordinates that are `n×4` homogeneous rows with fourth
component 1 (or `n×3` rows), and compiled weight records whose per-vertex
weights sum to 1 with in-range bone indices, `skinMesh` with a pose buffer
of identity matrices returns every vertex's first three rest components
unchanged. -/
theorem skinMesh_identity_pose (coords : List (List ℚ)) (W : List (List (ℚ × ℕ)))
    (nB : ℕ) (hlen : coords.length = W.length)
    (hc : (∀ r ∈ coords, r.length = 4 ∧ r.getD 3 0 = 1) ∨ (∀ r ∈ coords, r.length = 3))
    (hw : ∀ v ∈ W, (v.map Prod.fst).sum = 1 ∧ ∀ p ∈ v, p.2 < nB) :
    skinMesh coords W (List.replicate nB id4) = coords.map (fun r => r.take 3) := by
  cases coords with
  | nil => rfl
  | cons r rest =>
    rcases hc with hc4 | hc3
    · have hhead : ((r :: rest).headD []).length = 4 := (hc4 r (by simp)).1
      simp only [skinMesh, hhead, if_pos]
      exact skinMesh_zip_len4 nB (r :: rest) W hlen (fun r2 hr2 => (hc4 r2 hr2).1) hw
    · have hhead : ((r :: rest).headD []).length = 3 := hc3 r (by simp)
      simp only [skinMesh, List.headD_cons]
      rw [if_neg (by rw [List.headD_cons] at hhead; omega)]
      exact skinMesh_zip_len3 nB (r :: rest) W hlen hc3 hw

theorem skinMesh_identity_pose_witness :
    ([[(1:ℚ), 2, 3, 1]].length = [[((1:ℚ), (0:ℕ))]].length) ∧
    (∀ r ∈ [[(1:ℚ), 2, 3, 1]], r.length = 4 ∧ r.getD 3 0 = 1) ∧
    (∀ v ∈ [[((1:ℚ), (0:ℕ))]], (v.map Prod.fst).sum = 1 ∧ ∀ p ∈ v, p.2 < 1) ∧
    skinMesh [[(1:ℚ), 2, 3, 1]] [[((1:ℚ), (0:ℕ))]] (List.replicate 1 id4)
      = [[(1:ℚ), 2, 3, 1]].map (fun r => r.take 3) :=
  ⟨rfl, by norm_num, by norm_num,
   skinMesh_identity_pose [[(1:ℚ), 2, 3, 1]] [[((1:ℚ), (0:ℕ))]] 1 rfl
     (Or.inl (by norm_num)) (by norm_num)⟩

/-- Descending lexicographic comparison on `(weight, boneIdx)` pairs:
`wGE a b` means `a` sorts no later than `b` under Python's
`sorted(pairs, reverse=True)`. -/
def wGE (a b : ℚ × ℕ) : Prop := b.1 < a.1 ∨ (b.1 = a.1 ∧ b.2 ≤ a.2)

instance : DecidableRel wGE := fun a b => by unfold wGE; exact inferInstance

instance : IsTotal (ℚ × ℕ) wGE := by
  constructor
  intro a b
  rcases lt_trichotomy a.1 b.1 with h | h | h
  · exact Or.inr (Or.inl h)
  · rcases le_total a.2 b.2 with h2 | h2
    · exact Or.inr (Or.inr ⟨h, h2⟩)
    · exact Or.inl (Or.inr ⟨h.symm, h2⟩)
  · exact Or.inl (Or.inl h)

instance : IsTrans (ℚ × ℕ) wGE := by
  constructor
  intro a b c hab hbc
  rcases hab with h1 | ⟨h1, h2⟩ <;> rcases hbc with h3 | ⟨h3, h4⟩
  · exact Or.inl (h3.trans h1)
  · exact Or.inl (by rw [h3]; exact h1)
  · exact Or.inl (by rw [← h1]; exact h3)
  · exact Or.inr ⟨h3.trans h1, h4.trans h2⟩

/-- Python's `sorted(pairs, reverse=True)` (lines 347 and 354).  `wGE` is a
total order that is antisymmetric on the bone-distinct pair lists produced by
the merge phase, so any sorting algorithm realizes it. -/
def sortDesc (l : List (ℚ × ℕ)) : List (ℚ × ℕ) := List.insertionSort wGE l

/-- Running maximum of lines 290-294: `max(verts)` of an empty sequence
raises `ValueError`. -/
def inferMax : List (String × List ℕ × List ℚ) → ℕ → Except String ℕ
  | [], acc => .ok acc
  | e :: t, acc =>
    match e.2.1.max? with
    | some mx => inferMax t (max mx acc)
    | none => .error "ValueError: max arg is an empty sequence"

/-- Vertex-count inference (lines 290-296): the running max, bumped by one
only when it is nonzero (`if vertexCount:` is falsy at 0). -/
def inferVertexCount (m : List (String × List ℕ × List ℚ)) : Except String ℕ :=
  match inferMax m 0 with
  | .ok vc => .ok (if vc ≠ 0 then vc + 1 else vc)
  | .error e => .error e

/-- `b_lookup` (line 322): a dict comprehension over
`enumerate(skel.getBones())`; for a duplicated bone name the last index
wins. -/
def bLookup (bones : List String) (nm : String) : Option ℕ :=
  ((bones.enum.filter (fun p => p.2 = nm)).getLast?).map Prod.fst

/-- Merge one `(wght, b_idx)` assignment into a vertex's accumulated list
(lines 330-340): the inner loop finds the last position holding bone `b`
and adds the weight there; otherwise the pair is appended. -/
def mergeInto (l : List (ℚ × ℕ)) (w : ℚ) (b : ℕ) : List (ℚ × ℕ) :=
  match ((l.enum.filter (fun p => p.2.2 = b)).getLast?).map Prod.fst with
  | some d => l.set d ((l.getD d (0, 0)).1 + w, b)
  | none => l ++ [(w, b)]

/-- One `(v_idx, wght)` step of the accumulation loop (lines 327-340):
`_ws[v_idx]` is created as `[]` on first sight of the vertex. -/
def addWeight (ws : List (ℕ × List (ℚ × ℕ))) (v : ℕ) (w : ℚ) (b : ℕ) :
    List (ℕ × List (ℚ × ℕ)) :=
  if v ∈ ws.map Prod.fst then
    ws.map (fun e => if e.1 = v then (e.1, mergeInto e.2 w b) else e)
  else ws ++ [(v, mergeInto [] w b)]

/-- Processing of one `(bname, (verts, weights))` item (lines 323-342): an
unresolved bone name raises `KeyError` at line 325, which is caught and
logged as a warning — the whole entry is skipped. -/
def buildStep (bones : List String) (ws : List (ℕ × List (ℚ × ℕ)))
    (e : String × List ℕ × List ℚ) : List (ℕ × List (ℚ × ℕ)) :=
  match bLookup bones e.1 with
  | none => ws
  | some bIdx => (e.2.1.zip e.2.2).foldl
      (fun ws2 p => addWeight ws2 p.1 p.2 bIdx) ws

/-- The `_ws` dict after the accumulation loop (lines 321-342), as an
insertion-ordered association list. -/
def buildWs (m : List (String × List ℕ × List ℚ)) (bones : List String) :
    List (ℕ × List (ℚ × ℕ)) :=
  m.foldl (buildStep bones) []

/-- Per-vertex finalization (lines 343-354): sort descending by
`(weight, boneIdx)`; when the entry count exceeds `nWeights`, keep the top
`nWeights` entries and divide each kept weight by their sum; otherwise the
sorted entries are kept as they are (no renormalization). -/
def finalizeVertex (K : ℕ) (l : List (ℚ × ℕ)) : List (ℚ × ℕ) :=
  if K < l.length then
    let s := (sortDesc l).take K
    let tot := (s.map Prod.fst).sum
    s.map (fun p => (p.1 / tot, p.2))
  else sortDesc l

/-- One record of the structured output array: the finalized entries,
padded to the fixed capacity `K` with the `np.zeros` defaults
(weight 0, bone index 0) of lines 298-319. -/
def padRecord (K : ℕ) (l : List (ℚ × ℕ)) : List (ℚ × ℕ) :=
  l ++ List.replicate (K - l.length) (0, 0)

/-- The output write loop (lines 356-359): `compiled_vertweights[v_idx]`
raises `IndexError` when `v_idx` is out of range of the length-`vertexCount`
output array. -/
def writeRecords (vc K : ℕ) :
    List (ℕ × List (ℚ × ℕ)) → List (List (ℚ × ℕ)) →
      Except String (List (List (ℚ × ℕ)))
  | [], arr => .ok arr
  | e :: t, arr =>
    if e.1 < vc then writeRecords vc K t (arr.set e.1 (padRecord K e.2))
    else .error "IndexError: index out of bounds"

/-- `_compileVertexWeights` (lines 286-361).  The bone mapping is an
association list `(bname, (verts, weights))` standing for the Python dict;
the skeleton contributes only its ordered bone-name list; the result is the
dense per-vertex array of `K`-slot records. -/
def _compileVertexWeights (m : List (String × List ℕ × List ℚ))
    (bones : List String) (vertexCount : Option ℕ) (nWeights : ℕ) :
    Except String (List (List (ℚ × ℕ))) :=
  match (match vertexCount with
         | some v => Except.ok v
         | none => inferVertexCount m) with
  | .error e => .error e
  | .ok vc =>
    writeRecords vc nWeights
      ((buildWs m bones).map (fun e => (e.1, finalizeVertex nWeights e.2)))
      (List.replicate vc (List.replicate nWeights ((0:ℚ), (0:ℕ))))

/-- Association-list lookup mirroring `_ws[v_idx]`. -/
def wsLookup : List (ℕ × List (ℚ × ℕ)) → ℕ → Option (List (ℚ × ℕ))
  | [], _ => none
  | e :: t, v => if e.1 = v then some e.2 else wsLookup t v

theorem sortDesc_sorted (l : List (ℚ × ℕ)) : (sortDesc l).Pairwise wGE :=
  List.sorted_insertionSort wGE l

theorem sortDesc_perm (l : List (ℚ × ℕ)) : (sortDesc l).Perm l :=
  List.perm_insertionSort wGE l

theorem pairwise_weights_of_wGE {l : List (ℚ × ℕ)} (h : l.Pairwise wGE) :
    l.Pairwise (fun a b => b.1 ≤ a.1) := by
  refine h.imp ?_
  intro a b hab
  rcases hab with h1 | ⟨h1, _⟩
  · exact h1.le
  · exact h1.le

theorem sortDesc_fst_sum (l : List (ℚ × ℕ)) :
    ((sortDesc l).map Prod.fst).sum = (l.map Prod.fst).sum :=
  ((sortDesc_perm l).map Prod.fst).sum_eq

theorem sum_map_fst_div (s : List (ℚ × ℕ)) (tot : ℚ) :
    (s.map (fun p => p.1 / tot)).sum = (s.map Prod.fst).sum / tot := by
  induction s with
  | nil => simp
  | cons a t ih => simp [ih, add_div]

theorem finalizeVertex_fst_sum (K : ℕ) (l : List (ℚ × ℕ)) (hK : 0 < K)
    (hpos : ∀ p ∈ l, 0 < p.1) (hsum : (l.map Prod.fst).sum = 1) :
    ((finalizeVertex K l).map Prod.fst).sum = 1 := by
  unfold finalizeVertex
  split
  · rename_i hlt
    have hlen : ((sortDesc l).take K).length = K := by
      rw [List.length_take, (sortDesc_perm l).length_eq]
      omega
    have hmem : ∀ p ∈ (sortDesc l).take K, 0 < p.1 := fun p hp =>
      hpos p ((sortDesc_perm l).mem_iff.mp (List.mem_of_mem_take hp))
    have htot : 0 < (((sortDesc l).take K).map Prod.fst).sum := by
      apply List.sum_pos
      · intro x hx
        rcases List.mem_map.mp hx with ⟨p, hp, rfl⟩
        exact hmem p hp
      · intro hnil
        have := congrArg List.length hnil
        rw [List.length_map, hlen, List.length_nil] at this
        omega
    rw [List.map_map]
    have hco : (Prod.fst ∘ fun p : ℚ × ℕ =>
        (p.1 / (((sortDesc l).take K).map Prod.fst).sum, p.2)) =
        fun p : ℚ × ℕ => p.1 / (((sortDesc l).take K).map Prod.fst).sum := rfl
    rw [hco, sum_map_fst_div, div_self htot.ne']
  · rw [sortDesc_fst_sum, hsum]

theorem finalizeVertex_sorted (K : ℕ) (l : List (ℚ × ℕ)) (hK : 0 < K)
    (hpos : ∀ p ∈ l, 0 < p.1) :
    (finalizeVertex K l).Pairwise (fun a b => b.1 ≤ a.1) := by
  unfold finalizeVertex
  split
  · rename_i hlt
    have hlen : ((sortDesc l).take K).length = K := by
      rw [List.length_take, (sortDesc_perm l).length_eq]
      omega
    have hmem : ∀ p ∈ (sortDesc l).take K, 0 < p.1 := fun p hp =>
      hpos p ((sortDesc_perm l).mem_iff.mp (List.mem_of_mem_take hp))
    have htot : 0 < (((sortDesc l).take K).map Prod.fst).sum := by
      apply List.sum_pos
      · intro x hx
        rcases List.mem_map.mp hx with ⟨p, hp, rfl⟩
        exact hmem p hp
      · intro hnil
        have := congrArg List.length hnil
        rw [List.length_map, hlen, List.length_nil] at this
        omega
    have hsorted : ((sortDesc l).take K).Pairwise (fun a b : ℚ × ℕ => b.1 ≤ a.1) :=
      pairwise_weights_of_wGE
        (List.Pairwise.sublist (List.take_sublist K _) (sortDesc_sorted l))
    rw [List.pairwise_map]
    exact hsorted.imp (fun h => (div_le_div_right htot).mpr h)
  · exact pairwise_weights_of_wGE (sortDesc_sorted l)

theorem finalizeVertex_nonneg (K : ℕ) (l : List (ℚ × ℕ))
    (hpos : ∀ p ∈ l, 0 < p.1) :
    ∀ p ∈ finalizeVertex K l, 0 ≤ p.1 := by
  unfold finalizeVertex
  split
  · intro p hp
    rcases List.mem_map.mp hp with ⟨q, hq, rfl⟩
    have hq2 : 0 < q.1 :=
      hpos q ((sortDesc_perm l).mem_iff.mp (List.mem_of_mem_take hq))
    have htot : 0 ≤ (((sortDesc l).take K).map Prod.fst).sum := by
      apply List.sum_nonneg
      intro x hx
      rcases List.mem_map.mp hx with ⟨r, hr, rfl⟩
      exact (hpos r ((sortDesc_perm l).mem_iff.mp (List.mem_of_mem_take hr))).le
    exact div_nonneg hq2.le htot
  · intro p hp
    exact (hpos p ((sortDesc_perm l).mem_iff.mp hp)).le

theorem padRecord_fst_sum (K : ℕ) (l : List (ℚ × ℕ)) :
    ((padRecord K l).map Prod.fst).sum = (l.map Prod.fst).sum := by
  unfold padRecord
  rw [List.map_append, List.sum_append, List.map_replicate]
  simp [List.sum_replicate]

theorem pairwise_weights_replicate_zero (n : ℕ) :
    (List.replicate n ((0:ℚ), (0:ℕ))).Pairwise (fun a b : ℚ × ℕ => b.1 ≤ a.1) := by
  induction n with
  | zero => simp
  | succ k ih =>
    rw [List.replicate_succ]
    exact List.Pairwise.cons (fun b hb => by rw [List.eq_of_mem_replicate hb]) ih

theorem padRecord_pairwise (K : ℕ) (l : List (ℚ × ℕ))
    (h : l.Pairwise (fun a b => b.1 ≤ a.1)) (hnn : ∀ p ∈ l, 0 ≤ p.1) :
    (padRecord K l).Pairwise (fun a b : ℚ × ℕ => b.1 ≤ a.1) := by
  unfold padRecord
  rw [List.pairwise_append]
  refine ⟨h, pairwise_weights_replicate_zero _, ?_⟩
  intro a ha b hb
  rw [List.eq_of_mem_replicate hb]
  exact hnn a ha

theorem getD_set_ne {α : Type} (l : List α) (i j : ℕ) (x d : α) (h : i ≠ j) :
    (l.set i x).getD j d = l.getD j d := by
  induction l generalizing i j with
  | nil => rfl
  | cons a t ih =>
    cases i with
    | zero =>
      cases j with
      | zero => exact absurd rfl h
      | succ j => rfl
    | succ i =>
      cases j with
      | zero => rfl
      | succ j => exact ih i j (by omega)

theorem getD_set_self {α : Type} (l : List α) (i : ℕ) (x d : α)
    (h : i < l.length) :
    (l.set i x).getD i d = x := by
  induction l generalizing i with
  | nil => simp at h
  | cons a t ih =>
    cases i with
    | zero => rfl
    | succ i => exact ih i (by simpa using h)

theorem writeRecords_getD_of_not_mem (vc K : ℕ) :
    ∀ (ws : List (ℕ × List (ℚ × ℕ))) (arr out : List (List (ℚ × ℕ))) (v : ℕ),
      writeRecords vc K ws arr = .ok out → v ∉ ws.map Prod.fst →
      out.getD v [] = arr.getD v [] := by
  intro ws
  induction ws with
  | nil =>
    intro arr out v h _
    rw [writeRecords] at h
    injection h with h2
    rw [h2]
  | cons e t ih =>
    intro arr out v h hnm
    rw [writeRecords] at h
    split at h
    · have hne : e.1 ≠ v := fun hh => hnm (by simp [← hh])
      rw [ih _ _ _ h (fun hm => hnm (by simp [hm]))]
      exact getD_set_ne arr e.1 v _ [] hne
    · exact absurd h (by simp)

theorem writeRecords_ok_getD (vc K : ℕ) :
    ∀ (ws : List (ℕ × List (ℚ × ℕ))) (arr out : List (List (ℚ × ℕ))),
      writeRecords vc K ws arr = .ok out → arr.length = vc →
      (ws.map Prod.fst).Nodup →
      ∀ v rec, (v, rec) ∈ ws → out.getD v [] = padRecord K rec := by
  intro ws
  induction ws with
  | nil =>
    intro arr out h _ _ v rec hmem
    simp at hmem
  | cons e t ih =>
    intro arr out h hlen hnd v rec hmem
    rw [writeRecords] at h
    split at h
    · rename_i hlt
      rcases List.mem_cons.mp hmem with heq | hmem2
      · have he : e = (v, rec) := heq.symm
        subst he
        have hv : v ∉ t.map Prod.fst := by
          rw [List.map_cons, List.nodup_cons] at hnd
          exact hnd.1
        rw [writeRecords_getD_of_not_mem vc K t _ _ v h hv]
        exact getD_set_self arr v _ [] (by rw [hlen]; exact hlt)
      · refine ih _ _ h ?_ ?_ v rec hmem2
        · rw [List.length_set]
          exact hlen
        · rw [List.map_cons, List.nodup_cons] at hnd
          exact hnd.2
    · exact absurd h (by simp)

theorem wsLookup_mem :
    ∀ (ws : List (ℕ × List (ℚ × ℕ))) (v : ℕ) (l : List (ℚ × ℕ)),
      wsLookup ws v = some l → (v, l) ∈ ws := by
  intro ws
  induction ws with
  | nil => intro v l h; simp [wsLookup] at h
  | cons e t ih =>
    intro v l h
    rw [wsLookup] at h
    split at h
    · rename_i he
      injection h with h2
      rw [← he, ← h2]
      exact List.mem_cons_self e t
    · exact List.mem_cons_of_mem e (ih v l h)

theorem wsLookup_map_finalize (K : ℕ) :
    ∀ (ws : List (ℕ × List (ℚ × ℕ))) (v : ℕ),
      wsLookup (ws.map (fun e => (e.1, finalizeVertex K e.2))) v =
        (wsLookup ws v).map (finalizeVertex K) := by
  intro ws
  induction ws with
  | nil => intro v; rfl
  | cons e t ih =>
    intro v
    simp only [List.map_cons, wsLookup]
    by_cases he : e.1 = v
    · simp [he]
    · simp [he, ih v]

theorem addWeight_map_fst (ws : List (ℕ × List (ℚ × ℕ))) (v : ℕ) (w : ℚ) (b : ℕ) :
    (addWeight ws v w b).map Prod.fst =
      if v ∈ ws.map Prod.fst then ws.map Prod.fst else ws.map Prod.fst ++ [v] := by
  unfold addWeight
  split
  · rw [List.map_map]
    refine List.map_congr_left ?_
    intro e _
    by_cases he : e.1 = v
    · simp [he]
    · simp [he]
  · rw [List.map_append]
    rfl

theorem addWeight_nodup (ws : List (ℕ × List (ℚ × ℕ))) (v : ℕ) (w : ℚ) (b : ℕ)
    (h : (ws.map Prod.fst).Nodup) : ((addWeight ws v w b).map Prod.fst).Nodup := by
  rw [addWeight_map_fst]
  split
  · exact h
  · rename_i hmem
    simp [List.nodup_append, h, hmem]

theorem addWeight_ne_nil (ws : List (ℕ × List (ℚ × ℕ))) (v : ℕ) (w : ℚ) (b : ℕ) :
    addWeight ws v w b ≠ [] := by
  unfold addWeight
  split
  · rename_i hmem
    intro hnil
    have hws : ws = [] := List.map_eq_nil_iff.mp hnil
    rw [hws] at hmem
    simp at hmem
  · intro hnil
    simp at hnil

theorem foldl_addWeight_nodup (b : ℕ) :
    ∀ (ps : List (ℕ × ℚ)) (ws : List (ℕ × List (ℚ × ℕ))),
      (ws.map Prod.fst).Nodup →
      (((ps.foldl (fun ws2 p => addWeight ws2 p.1 p.2 b) ws)).map Prod.fst).Nodup := by
  intro ps
  induction ps with
  | nil => intro ws h; exact h
  | cons p t ih => intro ws h; exact ih _ (addWeight_nodup ws p.1 p.2 b h)

theorem buildStep_nodup (bones : List String) (ws : List (ℕ × List (ℚ × ℕ)))
    (e : String × List ℕ × List ℚ) (h : (ws.map Prod.fst).Nodup) :
    ((buildStep bones ws e).map Prod.fst).Nodup := by
  unfold buildStep
  split
  · exact h
  · exact foldl_addWeight_nodup _ _ ws h

theorem buildWs_nodup (m : List (String × List ℕ × List ℚ)) (bones : List String) :
    ((buildWs m bones).map Prod.fst).Nodup := by
  unfold buildWs
  have : ∀ (m2 : List (String × List ℕ × List ℚ)) (ws : List (ℕ × List (ℚ × ℕ))),
      (ws.map Prod.fst).Nodup →
      ((m2.foldl (buildStep bones) ws).map Prod.fst).Nodup := by
    intro m2
    induction m2 with
    | nil => intro ws h; exact h
    | cons e t ih => intro ws h; exact ih _ (buildStep_nodup bones ws e h)
  exact this m [] (by simp)

/-- Claim C3 (amended): for every raw mapping and every vertex the mapping
assigns at least one weight to via a resolving bone name (`wsLookup` of the
accumulated `_ws` succeeds), the compiled record is sorted by descending
weight; its weights sum to 1 provided the vertex's merged raw weights are
positive and themselves sum to 1.  The amendment is forced: when the entry
count is ≤ K the code stores the sorted weights without renormalizing, so a
raw per-vertex sum other than 1 is passed through (see the
counterexample). -/
theorem compiledWeights_sorted_and_sum (m : List (String × List ℕ × List ℚ))
    (bones : List String) (vcOpt : Option ℕ) (K : ℕ) (v : ℕ)
    (l : List (ℚ × ℕ)) (out : List (List (ℚ × ℕ)))
    (hK : 0 < K)
    (hcomp : _compileVertexWeights m bones vcOpt K = .ok out)
    (hl : wsLookup (buildWs m bones) v = some l)
    (hpos : ∀ p ∈ l, 0 < p.1)
    (hsum : (l.map Prod.fst).sum = 1) :
    ((out.getD v []).map Prod.fst).sum = 1 ∧
    (out.getD v []).Pairwise (fun a b : ℚ × ℕ => b.1 ≤ a.1) := by
  unfold _compileVertexWeights at hcomp
  split at hcomp
  · simp at hcomp
  · rename_i vc heq
    have hlk : wsLookup ((buildWs m bones).map
        (fun e => (e.1, finalizeVertex K e.2))) v = some (finalizeVertex K l) := by
      rw [wsLookup_map_finalize, hl]
      rfl
    have hmem := wsLookup_mem _ _ _ hlk
    have hnd : (((buildWs m bones).map
        (fun e => (e.1, finalizeVertex K e.2))).map Prod.fst).Nodup := by
      rw [List.map_map]
      have h1 : ((buildWs m bones).map
          (Prod.fst ∘ fun e => (e.1, finalizeVertex K e.2))) =
          (buildWs m bones).map Prod.fst :=
        List.map_congr_left (fun e _ => rfl)
      rw [h1]
      exact buildWs_nodup m bones
    have hout := writeRecords_ok_getD vc K _ _ out hcomp
      (by rw [List.length_replicate]) hnd v _ hmem
    rw [hout]
    constructor
    · rw [padRecord_fst_sum]
      exact finalizeVertex_fst_sum K l hK hpos hsum
    · exact padRecord_pairwise K _ (finalizeVertex_sorted K l hK hpos)
        (finalizeVertex_nonneg K l hpos)

/-- Claim C3, counterexample to the unrestricted claim: a mapping that
assigns vertex 1 the single weight 1/2 compiles successfully (entry count
1 ≤ K = 4, no renormalization) to a record whose weights sum to 1/2, not
1. -/
theorem compiledWeights_sum_cex :
    _compileVertexWeights [("b", ([1], [(1:ℚ)/2]))] ["b"] (some 2) 4 =
      .ok [List.replicate 4 ((0:ℚ), (0:ℕ)),
           [((1:ℚ)/2, 0), (0, 0), (0, 0), (0, 0)]] ∧
    wsLookup (buildWs [("b", ([1], [(1:ℚ)/2]))] ["b"]) 1 = some [((1:ℚ)/2, 0)] ∧
    ([((1:ℚ)/2, (0:ℕ)), (0, 0), (0, 0), (0, 0)].map Prod.fst).sum ≠ 1 := by
  refine ⟨by with_unfolding_all decide, by with_unfolding_all decide,
    by with_unfolding_all decide⟩

theorem compiledWeights_sorted_and_sum_witness :
    (([[((0:ℚ), (0:ℕ)), (0, 0), (0, 0), (0, 0)],
       [((1:ℚ), (0:ℕ)), (0, 0), (0, 0), (0, 0)]].getD 1 []).map Prod.fst).sum = 1 ∧
    ([[((0:ℚ), (0:ℕ)), (0, 0), (0, 0), (0, 0)],
      [((1:ℚ), (0:ℕ)), (0, 0), (0, 0), (0, 0)]].getD 1 []).Pairwise
      (fun a b : ℚ × ℕ => b.1 ≤ a.1) :=
  compiledWeights_sorted_and_sum [("b", ([1], [(1:ℚ)]))] ["b"] (some 2) 4 1
    [((1:ℚ), 0)] _ (by norm_num) (by with_unfolding_all decide)
    (by with_unfolding_all decide) (by norm_num) (by norm_num)

theorem inferMax_all_zero (m : List (String × List ℕ × List ℚ))
    (h1 : ∀ e ∈ m, e.2.1 ≠ [] ∧ ∀ i ∈ e.2.1, i = 0) :
    inferMax m 0 = .ok 0 := by
  induction m with
  | nil => rfl
  | cons e t ih =>
    obtain ⟨hne, hall⟩ := h1 e (List.mem_cons_self e t)
    rw [inferMax]
    cases hmx : e.2.1.max? with
    | none => exact absurd (List.max?_eq_none_iff.mp hmx) hne
    | some mx =>
      have hmx0 : mx = 0 := hall mx (List.max?_mem max_choice hmx)
      subst hmx0
      exact ih (fun e2 he2 => h1 e2 (List.mem_cons_of_mem e he2))

theorem inferVertexCount_all_zero (m : List (String × List ℕ × List ℚ))
    (h1 : ∀ e ∈ m, e.2.1 ≠ [] ∧ ∀ i ∈ e.2.1, i = 0) :
    inferVertexCount m = .ok 0 := by
  unfold inferVertexCount
  rw [inferMax_all_zero m h1]
  rfl

theorem foldl_addWeight_ne_nil (b : ℕ) :
    ∀ (ps : List (ℕ × ℚ)) (ws : List (ℕ × List (ℚ × ℕ))),
      (ws ≠ [] ∨ ps ≠ []) →
      ps.foldl (fun ws2 p => addWeight ws2 p.1 p.2 b) ws ≠ [] := by
  intro ps
  induction ps with
  | nil =>
    intro ws h
    rcases h with h | h
    · exact h
    · exact absurd rfl h
  | cons p t ih =>
    intro ws _
    rw [List.foldl_cons]
    exact ih _ (Or.inl (addWeight_ne_nil _ _ _ _))

theorem buildStep_ne_nil (bones : List String) (ws : List (ℕ × List (ℚ × ℕ)))
    (e : String × List ℕ × List ℚ) (h : ws ≠ []) : buildStep bones ws e ≠ [] := by
  unfold buildStep
  split
  · exact h
  · exact foldl_addWeight_ne_nil _ _ _ (Or.inl h)

theorem foldl_buildStep_ne_nil (bones : List String) :
    ∀ (m2 : List (String × List ℕ × List ℚ)) (ws : List (ℕ × List (ℚ × ℕ))),
      ws ≠ [] → m2.foldl (buildStep bones) ws ≠ [] := by
  intro m2
  induction m2 with
  | nil => intro ws h; exact h
  | cons e t ih => intro ws h; exact ih _ (buildStep_ne_nil bones ws e h)

theorem writeRecords_zero_cons (K : ℕ) (e : ℕ × List (ℚ × ℕ))
    (t : List (ℕ × List (ℚ × ℕ))) (arr : List (List (ℚ × ℕ))) :
    writeRecords 0 K (e :: t) arr = .error "IndexError: index out of bounds" := by
  rw [writeRecords]
  exact if_neg (Nat.not_lt_zero _)

theorem buildWs_ne_nil (m : List (String × List ℕ × List ℚ)) (bones : List String)
    (h2 : ∃ e ∈ m, (bLookup bones e.1).isSome ∧ e.2.1.zip e.2.2 ≠ []) :
    buildWs m bones ≠ [] := by
  obtain ⟨e, hem, hsome, hzip⟩ := h2
  obtain ⟨m1, m2, rfl⟩ := List.append_of_mem hem
  unfold buildWs
  rw [List.foldl_append, List.foldl_cons]
  apply foldl_buildStep_ne_nil
  obtain ⟨bIdx, hb⟩ := Option.isSome_iff_exists.mp hsome
  unfold buildStep
  rw [hb]
  exact foldl_addWeight_ne_nil bIdx _ _ (Or.inr hzip)

/-- Claim C10: when `vertexCount` is omitted and every referenced vertex
index is 0 (with at least one weight assigned via a resolving bone name),
the inferred count stays 0 — the `if vertexCount:` bump to `max+1` fires
only for a positive maximum, as the concrete third conjunct shows for
`max = 3` — a zero-length array is allocated, and the write of vertex 0's
record fails with `IndexError` instead of producing a length-1 result. -/
theorem compileVertexWeights_maxzero_oob (m : List (String × List ℕ × List ℚ))
    (bones : List String) (K : ℕ)
    (h1 : ∀ e ∈ m, e.2.1 ≠ [] ∧ ∀ i ∈ e.2.1, i = 0)
    (h2 : ∃ e ∈ m, (bLookup bones e.1).isSome ∧ e.2.2 ≠ []) :
    inferVertexCount m = .ok 0 ∧
    _compileVertexWeights m bones none K = .error "IndexError: index out of bounds" ∧
    inferVertexCount [("bone", ([0, 3], [(1:ℚ), 1]))] = .ok 4 := by
  have hinf : inferVertexCount m = .ok 0 := inferVertexCount_all_zero m h1
  refine ⟨hinf, ?_, by with_unfolding_all decide⟩
  have hzip : ∃ e ∈ m, (bLookup bones e.1).isSome ∧ e.2.1.zip e.2.2 ≠ [] := by
    obtain ⟨e, hem, hsome, hw⟩ := h2
    refine ⟨e, hem, hsome, ?_⟩
    obtain ⟨hv, _⟩ := h1 e hem
    cases hveq : e.2.1 with
    | nil => exact absurd hveq hv
    | cons a t =>
      cases hweq : e.2.2 with
      | nil => exact absurd hweq hw
      | cons b s => simp [hveq, hweq]
  have hws := buildWs_ne_nil m bones hzip
  obtain ⟨e0, t0, hcons⟩ := List.exists_cons_of_ne_nil hws
  unfold _compileVertexWeights
  rw [hinf, hcons, List.map_cons]
  exact writeRecords_zero_cons K _ _ _

theorem compileVertexWeights_maxzero_oob_witness :
    (∀ e ∈ [("b", ([0], [(1:ℚ)]))], e.2.1 ≠ [] ∧ ∀ i ∈ e.2.1, i = 0) ∧
    (∃ e ∈ [("b", ([0], [(1:ℚ)]))], (bLookup ["b"] e.1).isSome ∧ e.2.2 ≠ []) ∧
    inferVertexCount [("b", ([0], [(1:ℚ)]))] = .ok 0 ∧
    _compileVertexWeights [("b", ([0], [(1:ℚ)]))] ["b"] none 4 =
      .error "IndexError: index out of bounds" :=
  have h1 : ∀ e ∈ [("b", ([0], [(1:ℚ)]))], e.2.1 ≠ [] ∧ ∀ i ∈ e.2.1, i = 0 := by
    norm_num
  have h2 : ∃ e ∈ [("b", ([0], [(1:ℚ)]))], (bLookup ["b"] e.1).isSome ∧ e.2.2 ≠ [] :=
    ⟨("b", ([0], [(1:ℚ)])), by norm_num, by with_unfolding_all decide, by norm_num⟩
  ⟨h1, h2, (compileVertexWeights_maxzero_oob [("b", ([0], [(1:ℚ)]))] ["b"] 4 h1 h2).1,
   (compileVertexWeights_maxzero_oob [("b", ([0], [(1:ℚ)]))] ["b"] 4 h1 h2).2.1⟩
